import Mathlib

/-!
Verification of the core algorithms of the BuildStream staging tree.

The Python sources are shallowly embedded as executable Lean functions:

* `generate_key` — `src/buildstream/_cachekey.py`
* `IndexEntry`, `getDirectoryMsg`, `_get_digest` —
  `src/buildstream/storage/_casbaseddirectory.py` (`CasBasedDirectory._get_digest`)
* `list_artifacts` — `src/src/buildstream/_artifactcache.py`

Hash functions (SHA-256) and byte serializers (`pickle.dumps`, protobuf
`SerializeToString`) are pure functions of their input; they are taken as
parameters, so every theorem holds for an arbitrary choice of them.
-/

/-! ## Cache key engine (`_cachekey.py`) -/

/-- A configuration value: anything `generate_key` accepts ("a simple value or
recursive dictionary with lists etc"). -/
inductive Value where
  | str (s : String)
  | int (n : Int)
  | bool (b : Bool)
  | null
  | list (xs : List Value)
  | map (kvs : List (String × Value))

/-- Ordering of mapping keys used when canonicalizing a mapping. -/
def keyLe (a b : String × Value) : Prop := a.1 ≤ b.1

instance (a b : String × Value) : Decidable (keyLe a b) := by
  unfold keyLe
  infer_instance

mutual

/-- Modelled from the spec: `_yaml.node_sanitize` (the `_yaml` module is not
part of the sources).  Canonicalization rules of spec section 4.5: mappings are
serialized with keys sorted lexicographically, sequences preserve declared
order, scalars are canonical already. -/
def node_sanitize : Value → Value
  | .str s => .str s
  | .int n => .int n
  | .bool b => .bool b
  | .null => .null
  | .list xs => .list (sanitize_list xs)
  | .map kvs => .map (List.insertionSort keyLe (sanitize_pairs kvs))

/-- Sanitize each element of a sequence, preserving order. -/
def sanitize_list : List Value → List Value
  | [] => []
  | x :: xs => node_sanitize x :: sanitize_list xs

/-- Sanitize the values of a mapping, keeping keys. -/
def sanitize_pairs : List (String × Value) → List (String × Value)
  | [] => []
  | (k, v) :: kvs => (k, node_sanitize v) :: sanitize_pairs kvs

end

/-- `generate_key` from `_cachekey.py`: sanitize the value, serialize it
(`pickle.dumps`, taken as the parameter `dumps`), and hash the bytes
(`hashlib.sha256(...).hexdigest()`, taken as the parameter `sha256hex`). -/
def generate_key (dumps : Value → List Nat) (sha256hex : List Nat → String)
    (value : Value) : String :=
  sha256hex (dumps (node_sanitize value))

/-! ## Canonical directory serialization (`CasBasedDirectory._get_digest`) -/

/-- `_FileType` from `storage/directory.py` (the members used by the CAS
directory index). -/
inductive FType where
  | directory
  | regularFile
  | symlink
deriving DecidableEq, Repr

/-- `IndexEntry` from `_casbaseddirectory.py`: one directory entry.  `digest`
is meaningful for files and (non-instantiated) subdirectories, `target` for
symlinks, `is_executable` for files; the unused fields default to `""`/`false`
exactly as the Python constructor defaults them to `None`/`False`. -/
structure IndexEntry where
  name : String
  type : FType
  digest : String := ""
  target : String := ""
  is_executable : Bool := false
deriving DecidableEq, Repr

/-- `sorted(self.index.items())` compares the `(name, entry)` tuples; names in
a directory index are unique (dict keys), so only names are compared. -/
def entryNameLe (a b : IndexEntry) : Prop := a.name ≤ b.name

instance (a b : IndexEntry) : Decidable (entryNameLe a b) := by
  unfold entryNameLe
  infer_instance

instance : IsTotal IndexEntry entryNameLe :=
  ⟨fun a b => le_total a.name b.name⟩

instance : IsTrans IndexEntry entryNameLe :=
  ⟨fun _ _ _ h₁ h₂ => le_trans h₁ h₂⟩

/-- Auxiliary strict order used to show sorted entry lists with distinct names
are unique: either strictly smaller name, or the very same entry. -/
def entryNameLtEq (a b : IndexEntry) : Prop := a.name < b.name ∨ a = b

instance : IsTrans IndexEntry entryNameLtEq where
  trans a b c h₁ h₂ := by
    rcases h₁ with h₁ | h₁ <;> rcases h₂ with h₂ | h₂
    · exact Or.inl (lt_trans h₁ h₂)
    · exact Or.inl (h₂ ▸ h₁)
    · exact Or.inl (h₁ ▸ h₂)
    · exact Or.inr (h₁.trans h₂)

instance : IsAntisymm IndexEntry entryNameLtEq where
  antisymm a b h₁ h₂ := by
    rcases h₁ with h₁ | h₁
    · rcases h₂ with h₂ | h₂
      · exact absurd h₂ (lt_asymm h₁)
      · exact h₂.symm
    · exact h₁

/-- The `remote_execution_pb2.Directory` message built by `_get_digest`:
three lists — subdirectories `(name, digest)`, files
`(name, digest, is_executable)`, symlinks `(name, target)`. -/
structure DirectoryMsg where
  directories : List (String × String)
  files : List (String × String × Bool)
  symlinks : List (String × String)
deriving DecidableEq, Repr

/-- The serialization loop of `_get_digest`: iterate the index entries sorted
by name and append each to the list for its type.  (A single pass appending to
three per-type lists equals a per-type filter of the sorted list.)  For a
`DIRECTORY` entry the digest is the entry's recorded digest — in the source,
`entry.digest` when no child object is instantiated, or the child's own
(recursively canonical) `_get_digest()`. -/
def getDirectoryMsg (index : List IndexEntry) : DirectoryMsg :=
  let sortedIndex := List.insertionSort entryNameLe index
  { directories :=
      (sortedIndex.filter (fun e => e.type = FType.directory)).map
        (fun e => (e.name, e.digest))
    files :=
      (sortedIndex.filter (fun e => e.type = FType.regularFile)).map
        (fun e => (e.name, e.digest, e.is_executable))
    symlinks :=
      (sortedIndex.filter (fun e => e.type = FType.symlink)).map
        (fun e => (e.name, e.target)) }

/-- `_get_digest` on a directory whose digest is not cached: serialize the
canonical message and store it; `add_object` (the CAS store + SHA-256) is a
parameter returning the digest. -/
def _get_digest (add_object : DirectoryMsg → String × Nat)
    (index : List IndexEntry) : String × Nat :=
  add_object (getDirectoryMsg index)

/-! ## Artifact cache LRU listing (`_artifactcache.py`) -/

/-- Order on `(mtime, ref)` pairs: Python tuple comparison, lexicographic. -/
def mtimeRefLe (a b : Nat × String) : Prop :=
  a.1 < b.1 ∨ (a.1 = b.1 ∧ a.2 ≤ b.2)

instance (a b : Nat × String) : Decidable (mtimeRefLe a b) := by
  unfold mtimeRefLe
  infer_instance

instance : IsTotal (Nat × String) mtimeRefLe where
  total a b := by
    unfold mtimeRefLe
    rcases lt_trichotomy a.1 b.1 with h | h | h
    · exact Or.inl (Or.inl h)
    · rcases le_total a.2 b.2 with h₂ | h₂
      · exact Or.inl (Or.inr ⟨h, h₂⟩)
      · exact Or.inr (Or.inr ⟨h.symm, h₂⟩)
    · exact Or.inr (Or.inl h)

instance : IsTrans (Nat × String) mtimeRefLe where
  trans a b c h₁ h₂ := by
    unfold mtimeRefLe at *
    rcases h₁ with h₁ | ⟨h₁, h₁'⟩ <;> rcases h₂ with h₂ | ⟨h₂, h₂'⟩
    · exact Or.inl (lt_trans h₁ h₂)
    · exact Or.inl (h₂ ▸ h₁)
    · exact Or.inl (h₁ ▸ h₂)
    · exact Or.inr ⟨h₁.trans h₂, h₁'.trans h₂'⟩

instance : IsAntisymm (Nat × String) mtimeRefLe where
  antisymm a b h₁ h₂ := by
    unfold mtimeRefLe at *
    rcases h₁ with h₁ | ⟨h₁, h₁'⟩
    · rcases h₂ with h₂ | ⟨h₂, h₂'⟩
      · exact absurd h₂ (lt_asymm h₁)
      · exact absurd h₁ (by omega)
    · rcases h₂ with h₂ | ⟨h₂, h₂'⟩
      · exact absurd h₂ (by omega)
      · exact Prod.ext h₁ (le_antisymm h₁' h₂')

/-- `ArtifactCache.list_artifacts`: `sorted(list(self._list_refs_mtimes(...)))`
projected to the refs.  The pair enumeration `_list_refs_mtimes` (in
`_assetcache.py`, not among the sources) is modelled from the spec as an
arbitrary list of `(mtime, ref)` pairs; `sorted` is embedded as a sort by the
lexicographic tuple order. -/
def list_artifacts (pairs : List (Nat × String)) : List String :=
  (List.insertionSort mtimeRefLe pairs).map Prod.snd

/-! ## Scheduler queue (`src/src/buildstream/_scheduler/queues/queue.py`) -/

/-- An element as seen by the scheduler queue: only its unique id (assigned at
plugin instantiation, outside these sources) matters for ordering. -/
structure QElement where
  unique_id : Nat
  name : String := ""
deriving DecidableEq, Repr

/-- Order of the `heapq` ready queue: entries are `(elt._unique_id, elt)`
tuples, compared on the id (ids are unique, so the tie component is never
compared). -/
def readyKeyLe (a b : Nat × QElement) : Prop := a.1 ≤ b.1

instance (a b : Nat × QElement) : Decidable (readyKeyLe a b) := by
  unfold readyKeyLe
  infer_instance

instance : IsTotal (Nat × QElement) readyKeyLe :=
  ⟨fun a b => Nat.le_total a.1 b.1⟩

instance : IsTrans (Nat × QElement) readyKeyLe :=
  ⟨fun _ _ _ h₁ h₂ => Nat.le_trans h₁ h₂⟩

/-- `Queue._push_ready`: `heapq.heappush(self._ready_queue, (elt._unique_id, elt))`.
The binary heap is modelled by its abstract state, the queue in sorted order;
a push is an ordered insert. -/
def _push_ready (q : List (Nat × QElement)) (elt : QElement) :
    List (Nat × QElement) :=
  List.orderedInsert readyKeyLe (elt.unique_id, elt) q

/-- The ready queue obtained by pushing a sequence of ready elements into an
initially empty queue. -/
def readyQueueOf (elts : List QElement) : List (Nat × QElement) :=
  elts.foldl _push_ready []

/-- `Queue.harvest_jobs`: while the ready queue is non-empty and the resources
can be reserved, reserve them and `heappop` the next element.  The shared
resource pool (`resources.py` is not among the sources) is modelled from the
spec as a counted capability: `tokens` reservations can still be made. -/
def harvest_jobs : Nat → List (Nat × QElement) → List QElement
  | _, [] => []
  | 0, _ :: _ => []
  | tokens + 1, entry :: rest => entry.2 :: harvest_jobs tokens rest

/-- `JobStatus` of a completed job (from `_scheduler/jobs`, as consumed by
`Queue._job_done`). -/
inductive JobStatus where
  | ok
  | fail
  | skipped
deriving DecidableEq, Repr

/-- Outcome of the `Queue.done()` implementor hook inside `_job_done`:
it returns normally, raises a `BstError`, or raises any other exception. -/
inductive DoneOutcome where
  | ok
  | bstError
  | otherException
deriving DecidableEq, Repr

/-- The queue bookkeeping state touched by `_job_done`.  `tokens` is the
number of available reservations in the shared resource pool. -/
structure QueueSt where
  failed_elements : List QElement
  processed_elements : List QElement
  skipped_elements : List QElement
  done_queue : List QElement
  tokens : Nat
deriving DecidableEq, Repr

/-- `Queue._job_done`: release the reserved resources, run the `done()` hook,
then either record the element as failed (hook raised) or place it on the done
queue and one bookkeeping list chosen by the job status and
`job.get_terminated()`.  `resweight` is the number of resource tokens the
queue's job classes reserve. -/
def _job_done (resweight : Nat) (st : QueueSt) (elt : QElement)
    (status : JobStatus) (terminated : Bool) (done_outcome : DoneOutcome) :
    QueueSt :=
  let st := { st with tokens := st.tokens + resweight }
  match done_outcome with
  | .bstError => { st with failed_elements := st.failed_elements ++ [elt] }
  | .otherException => { st with failed_elements := st.failed_elements ++ [elt] }
  | .ok =>
    let st := { st with done_queue := st.done_queue ++ [elt] }
    if status = JobStatus.skipped ∨ terminated then
      { st with skipped_elements := st.skipped_elements ++ [elt] }
    else if status = JobStatus.ok then
      { st with processed_elements := st.processed_elements ++ [elt] }
    else
      { st with failed_elements := st.failed_elements ++ [elt] }

/-! ## Build planner (`_pipeline.py`, class `_Planner`) -/

/-- The dependency information `_Planner` consults: per element the direct
`Scope.RUN` and `Scope.BUILD` dependencies (`recurse=False`) and whether the
element is already cached.  Elements are identified by their id. -/
structure ElementGraph where
  run_deps : Nat → List Nat
  build_deps : Nat → List Nat
  cached : Nat → Bool

/-- The planner state: `depth_map` (a Python dict: insertion-ordered, updates
keep the original position) and `visiting_elements` (a set, modelled as a
duplicate-free list). -/
structure PlannerSt where
  depth_map : List (Nat × Nat)
  visiting_elements : List Nat
deriving DecidableEq, Repr

/-- `self.depth_map.get(element)`. -/
def lookupDepth (m : List (Nat × Nat)) (e : Nat) : Option Nat :=
  (m.find? (fun p => p.1 == e)).map Prod.snd

/-- `self.depth_map[element] = depth`: update in place if present (dicts keep
the insertion position), else append. -/
def updateDepth : List (Nat × Nat) → Nat → Nat → List (Nat × Nat)
  | [], e, d => [(e, d)]
  | p :: rest, e, d =>
    if p.1 = e then (p.1, d) :: rest else p :: updateDepth rest e d

/-- One pending call of the planner recursion: `plan_element(e, depth)`, or
the loop `for dep in deps: plan_element(dep, depth)`. -/
inductive PlanCall where
  | elem (e : Nat) (depth : Nat)
  | deps (es : List Nat) (depth : Nat)

/-- `_Planner.plan_element`, embedded with explicit fuel (one unit per call;
the termination theorem shows a sufficient amount exists).  Faithful to the
source: return early when the element is already being visited (circular
dependency) or already processed at an equal or greater depth; otherwise mark
it as visiting, plan the direct runtime dependencies at the same depth, then —
unless the element is cached — the direct build dependencies at `depth + 1`,
record the depth, and unmark. -/
def planGo (g : ElementGraph) : Nat → PlanCall → PlannerSt → Option PlannerSt
  | 0, _, _ => none
  | fuel + 1, .deps es depth, st =>
    match es with
    | [] => some st
    | e :: rest =>
      match planGo g fuel (.elem e depth) st with
      | none => none
      | some st' => planGo g fuel (.deps rest depth) st'
  | fuel + 1, .elem e depth, st =>
    if e ∈ st.visiting_elements then
      some st
    else
      let step : Option PlannerSt :=
        let st₁ :=
          { st with visiting_elements := st.visiting_elements ++ [e] }
        match planGo g fuel (.deps (g.run_deps e) depth) st₁ with
        | none => none
        | some st₂ =>
          match
            (if g.cached e then some st₂
             else planGo g fuel (.deps (g.build_deps e) (depth + 1)) st₂) with
          | none => none
          | some st₃ =>
            some { depth_map := updateDepth st₃.depth_map e depth,
                   visiting_elements := st₃.visiting_elements.erase e }
      match lookupDepth st.depth_map e with
      | some prev => if depth ≤ prev then some st else step
      | none => step

/-- Sort key of `plan()`: `sorted(..., key=itemgetter(1), reverse=True)` —
greatest recorded depth first.  Python's sort is stable, as is the embedded
insertion sort. -/
def depthGe (a b : Nat × Nat) : Prop := b.2 ≤ a.2

instance (a b : Nat × Nat) : Decidable (depthGe a b) := by
  unfold depthGe
  infer_instance

instance : IsTotal (Nat × Nat) depthGe :=
  ⟨fun a b => Nat.le_total b.2 a.2⟩

instance : IsTrans (Nat × Nat) depthGe :=
  ⟨fun _ _ _ h₁ h₂ => Nat.le_trans h₂ h₁⟩

/-- `_Planner.plan(roots, plan_cached)`: plan every root at depth 0, then
return the depth-map entries sorted by greatest depth first, dropping cached
elements unless `plan_cached`. -/
def plan (g : ElementGraph) (fuel : Nat) (roots : List Nat)
    (plan_cached : Bool) : Option (List Nat) :=
  match planGo g fuel (.deps roots 0) ⟨[], []⟩ with
  | none => none
  | some st =>
    some (((List.insertionSort depthGe st.depth_map).filter
      (fun item => plan_cached || !g.cached item.1)).map Prod.fst)

/-! ## CAS-backed directory trees (`_casbaseddirectory.py`)

The object graph of `CasBasedDirectory`: every directory holds an insertion-
ordered `index` mapping names to entries (a Python dict, so names are unique);
a directory entry owns its subdirectory object, files carry a digest and the
executable bit, symlinks carry a target string.  A directory inside the tree
is identified by the path of names from the root (the chain of `parent`
pointers inverted), which is faithful because every `CasBasedDirectory` has
exactly one parent. -/

/-- One node of a CAS directory tree. -/
inductive CNode where
  | dir (entries : List (String × CNode))
  | file (digest : String) (is_executable : Bool)
  | symlink (target : String)

/-- A directory's `index`: insertion-ordered name/entry pairs. -/
abbrev Entries := List (String × CNode)

/-- `directory.index[name]` / `name in directory.index` (names are unique in a
Python dict, so the first match is the entry). -/
def lookupEntry (es : Entries) (name : String) : Option CNode :=
  (es.find? (fun kv => kv.1 == name)).map Prod.snd

/-- The directory reached by following a path of subdirectory names. -/
def treeAt (es : Entries) : List String → Option Entries
  | [] => some es
  | c :: rest =>
    match lookupEntry es c with
    | some (.dir sub) => treeAt sub rest
    | _ => none

/-- Mutate the directory at a path inside the tree (in the source an in-place
mutation of the shared `CasBasedDirectory` object).  Since names in a
directory are unique, guarding the map on the entry name updates exactly the
one entry the source mutates. -/
def updateAt (es : Entries) : List String → (Entries → Entries) → Entries
  | [], f => f es
  | c :: rest, f =>
    es.map fun kv =>
      if kv.1 = c then
        match kv.2 with
        | .dir sub => (kv.1, .dir (updateAt sub rest f))
        | _ => kv
      else kv

/-- `CasBasedDirectory.delete_entry`: `if name in self.index: del ...`. -/
def delete_entry (es : Entries) (name : String) : Entries :=
  es.eraseP (fun kv => kv.1 == name)

/-- `FileListResult` from `utils.py` (the fields the CAS import uses). -/
structure FileListResult where
  files_written : List String := []
  overwritten : List String := []
  ignored : List String := []
deriving DecidableEq, Repr

/-- `os.path.join` on two relative path pieces. -/
def pjoin (a b : String) : String := if a = "" then b else a ++ "/" ++ b

/-- Python dict assignment `self.index[name] = entry`: replace in place when
the key exists, else append. -/
def dictSet : Entries → String → CNode → Entries
  | [], name, node => [(name, node)]
  | kv :: rest, name, node =>
    if kv.1 = name then (kv.1, node) :: rest else kv :: dictSet rest name node

/-- `CasBasedDirectory._check_replacement`: decide whether an import may
overwrite the existing entry called `name`, updating the entry map and the
result record exactly as the source does (returns the go-ahead flag). -/
def _check_replacement (es : Entries) (name : String) (pfx : String)
    (result : FileListResult) : Bool × Entries × FileListResult :=
  match lookupEntry es name with
  | none => (true, es, result)
  | some (.dir sub) =>
    if sub.isEmpty then
      (true, delete_entry es name,
        { result with
            overwritten := result.overwritten ++ [pjoin pfx name] })
    else
      (false, es,
        { result with
            ignored := result.ignored ++ [pjoin pfx name] })
  | some _ =>
    (true, delete_entry es name,
      { result with
          overwritten := result.overwritten ++ [pjoin pfx name] })

/-- The file/symlink arm of `_partial_import_cas_into_cas` (a single path
component `f` naming a file or symlink of the source directory): run
`_check_replacement`; when importable, write the incoming entry (a file entry
copy, or `_add_new_link_direct` for a symlink) and record the path in
`files_written`; otherwise record it in `ignored`. -/
def import_cas_leaf (es : Entries) (f : String) (pfx : String)
    (src : CNode) (result : FileListResult) : Entries × FileListResult :=
  match _check_replacement es f pfx result with
  | (importable, es', result') =>
    if importable then
      match src with
      | .file digest is_exec =>
        (dictSet es' f (.file digest is_exec),
         { result' with
             files_written := result'.files_written ++ [pjoin pfx f] })
      | .symlink target =>
        (dictSet es' f (.symlink target),
         { result' with
             files_written := result'.files_written ++ [pjoin pfx f] })
      | .dir _ => (es', result')
    else
      (es', { result' with
                ignored := result'.ignored ++ [pjoin pfx f] })

/-! ## `descend` (C6) -/

/-- How a `descend` fails: `missing` and `notADirectory` are the two
`VirtualDirectoryError` cases; `nameError` models the Python `NameError`
raised when the interpreter evaluates the undefined variable
`subdirectory_spec`. -/
inductive DescendErr where
  | nameError
  | missing
  | notADirectory
deriving DecidableEq, Repr

/-- `CasBasedDirectory.descend`: walk the path components, skipping empty
segments.  A component naming a subdirectory is entered.  For a component
whose entry exists but is not a directory, the source executes
`type, target = self._resolve(subdirectory_spec[0], force_create=create)` —
but `subdirectory_spec` is not defined anywhere in the function, so Python
raises `NameError` while evaluating the argument, before any
`VirtualDirectoryError` can be raised.  A missing component is created
(`_add_directory`, an empty directory) when `create` is set, else raises the
not-found `VirtualDirectoryError`. -/
def casDescend (es : Entries) (paths : List String) (create : Bool) :
    Except DescendErr Entries :=
  match paths with
  | [] => .ok es
  | p :: rest =>
    if p = "" then casDescend es rest create
    else
      match lookupEntry es p with
      | some (.dir sub) => casDescend sub rest create
      | some _ => .error .nameError
      | none =>
        if create then casDescend [] rest create
        else .error .missing

/-- A filesystem node as classified by `os.lstat` in
`FileBasedDirectory.descend`. -/
inductive FSNode where
  | dir (entries : List (String × FSNode))
  | file
  | symlink
  | special

/-- Lookup of one name in a filesystem directory. -/
def fsLookup (es : List (String × FSNode)) (name : String) : Option FSNode :=
  (es.find? (fun kv => kv.1 == name)).map Prod.snd

/-- `FileBasedDirectory.descend`: per component, `os.lstat` the joined path —
an existing non-directory raises the not-a-directory `VirtualDirectoryError`,
a missing path is created with `os.mkdir` when `create` is set and raises the
does-not-exist error otherwise.  (Paths are modelled as a symlink-free walk;
`lstat` reports a symlink component itself as a non-directory.) -/
def fsDescend (es : List (String × FSNode)) (paths : List String)
    (create : Bool) : Except DescendErr (List (String × FSNode)) :=
  match paths with
  | [] => .ok es
  | p :: rest =>
    if p = "" then fsDescend es rest create
    else
      match fsLookup es p with
      | some (.dir sub) => fsDescend sub rest create
      | some _ => .error .notADirectory
      | none =>
        if create then fsDescend [] rest create
        else .error .missing

/-! ## The symlink resolver (`_Resolver`, C4 and C5) -/

/-- `target.split(CasBasedDirectory._pb2_path_sep)` — Python `str.split` on
the single-character separator `"/"`, implemented over the character list so
that it evaluates by `rfl`. -/
def splitChars : List Char → List Char → List (List Char)
  | [], acc => [acc.reverse]
  | c :: cs, acc =>
    if c = '/' then acc.reverse :: splitChars cs []
    else splitChars cs (c :: acc)

/-- Python `target.split("/")`. -/
def splitSlash (s : String) : List String :=
  (splitChars s.data []).map (fun cs => String.mk cs)

/-- Python `target.startswith("/")`
(`CasBasedDirectory._pb2_absolute_pfx`). -/
def startsWithSlash (s : String) : Bool :=
  match s.data with
  | [] => false
  | c :: _ => c = '/'

/-- The three `ResolutionException` kinds raised by `_Resolver`. -/
inductive RErr where
  | infiniteSymlink
  | absoluteSymlink
  | unexpectedFile
deriving DecidableEq, Repr

/-- The mutable state a resolution threads: the (possibly `force_create`-
mutated) tree and `seen_objects`.  A symlink `IndexEntry` object is identified
by the position `(directory path, name)`; this is faithful because entries
belong to exactly one directory object, resolution never creates symlink
entries, and deleted entries are never recreated as symlinks. -/
structure RSt where
  root : Entries
  seen : List (List String × String)

/-- One pending call of the resolver recursion: `resolve`, the component
`while` loop of `resolve`, `_resolve_path_component`, and
`_resolve_through_files`. -/
inductive RCall where
  | resolve (name : String) (dpath : List String)
  | loop (components : List String) (dpath : List String)
  | component (c : String) (dpath : List String) (rest : List String)
  | throughFiles (c : String) (dpath : List String) (rest : List String)

/-- `_Resolver` embedded with explicit fuel, one unit per call (the
termination theorem shows a sufficient amount exists).  `ar` is
`absolute_symlinks_resolve`, `fc` is `force_create`.  A result is the
`(resolution_type, resolution)` pair of the source — the type is a `_FileType`
or `none`, the resolution a directory path or `none` — together with the
state.

* `resolve`: a nonexistent name gives `(none, none)`; a directory or file
  entry resolves immediately.  For a symlink entry: raise `INFINITE_SYMLINK`
  when the entry was already seen, else record it, split the target, restart
  from the root dropping the first (empty) component for an absolute target
  when allowed (`ABSOLUTE_SYMLINK` otherwise), and run the component loop.
* `loop`: `while components and resolution_type == DIRECTORY`.
* `component`: `.` stays; `..` ascends, staying at the root POSIX-style when
  there is no parent; a present name goes through `_resolve_through_files`; an
  absent name is created as a directory under `force_create` (`descend` with
  `create=True`, which returns the directory itself for an empty name) and
  otherwise resolves to `(none, none)`.
* `throughFiles`: resolve the component; a regular file with components still
  to traverse is deleted and replaced by a fresh directory under
  `force_create` and raises `UNEXPECTED_FILE` otherwise. -/
def resolveGo (ar fc : Bool) :
    Nat → RCall → RSt →
      Option (Except RErr (RSt × Option FType × Option (List String)))
  | 0, _, _ => none
  | fuel + 1, .resolve name dpath, st =>
    match lookupEntry ((treeAt st.root dpath).getD []) name with
    | none => some (.ok (st, none, none))
    | some (.dir _) => some (.ok (st, some .directory, some (dpath ++ [name])))
    | some (.file _ _) => some (.ok (st, some .regularFile, none))
    | some (.symlink target) =>
      if (dpath, name) ∈ st.seen then
        some (.error .infiniteSymlink)
      else
        let st' : RSt := ⟨st.root, st.seen ++ [(dpath, name)]⟩
        if startsWithSlash target then
          if ar then resolveGo ar fc fuel (.loop (splitSlash target).tail []) st'
          else some (.error .absoluteSymlink)
        else resolveGo ar fc fuel (.loop (splitSlash target) dpath) st'
  | fuel + 1, .loop components dpath, st =>
    match components with
    | [] => some (.ok (st, some .directory, some dpath))
    | c :: rest =>
      match resolveGo ar fc fuel (.component c dpath rest) st with
      | none => none
      | some (.error e) => some (.error e)
      | some (.ok (st', rtype, rres)) =>
        match rtype with
        | some .directory => resolveGo ar fc fuel (.loop rest (rres.getD [])) st'
        | _ => some (.ok (st', rtype, rres))
  | fuel + 1, .component c dpath rest, st =>
    if c = "." then some (.ok (st, some .directory, some dpath))
    else if c = ".." then
      some (.ok (st, some .directory, some dpath.dropLast))
    else
      match lookupEntry ((treeAt st.root dpath).getD []) c with
      | some _ => resolveGo ar fc fuel (.throughFiles c dpath rest) st
      | none =>
        if fc then
          if c = "" then some (.ok (st, some .directory, some dpath))
          else
            some (.ok
              (⟨updateAt st.root dpath (fun es => es ++ [(c, .dir [])]),
                st.seen⟩,
               some .directory, some (dpath ++ [c])))
        else some (.ok (st, none, none))
  | fuel + 1, .throughFiles c dpath rest, st =>
    match resolveGo ar fc fuel (.resolve c dpath) st with
    | none => none
    | some (.error e) => some (.error e)
    | some (.ok (st', rtype, rres)) =>
      if rtype = some FType.regularFile then
        if ! rest.isEmpty then
          if fc then
            some (.ok
              (⟨updateAt (updateAt st'.root dpath (fun es => delete_entry es c))
                  dpath (fun es => es ++ [(c, .dir [])]), st'.seen⟩,
               some .directory, some (dpath ++ [c])))
          else some (.error .unexpectedFile)
        else some (.ok (st', rtype, rres))
      else some (.ok (st', rtype, rres))

/-- `CasBasedDirectory._resolve`: run `_Resolver(...).resolve(name, self)`
with a fresh `seen_objects` list. -/
def resolver_resolve (ar fc : Bool) (fuel : Nat) (root : Entries)
    (name : String) (dpath : List String) :
    Option (Except RErr (RSt × Option FType × Option (List String))) :=
  resolveGo ar fc fuel (.resolve name dpath) ⟨root, []⟩

/-- All symlink entry positions of a tree, with their targets. -/
def symPosT : Entries → List ((List String × String) × String)
  | [] => []
  | (n, .symlink t) :: rest => (([], n), t) :: symPosT rest
  | (n, .dir sub) :: rest =>
    (symPosT sub).map (fun q => ((n :: q.1.1, q.1.2), q.2)) ++ symPosT rest
  | (_, .file _ _) :: rest => symPosT rest

/-- The resolver's termination measure: symlink entries not yet recorded in
`seen_objects`. -/
def rUnseen (st : RSt) : Nat :=
  (symPosT st.root).countP (fun q => !decide (q.1 ∈ st.seen))

/-- `B` bounds the per-symlink work when every target splits into fewer than
`(B - 4) / 4` components. -/
def targetsOk (es : Entries) (B : Nat) : Prop :=
  ∀ q ∈ symPosT es, 4 * (splitSlash q.2).length + 4 ≤ B

/-- The largest number of components among all symlink targets of a tree. -/
def maxTargetComps (es : Entries) : Nat :=
  (symPosT es).foldr (fun q acc => max (splitSlash q.2).length acc) 0

/-- State evolution invariant of one resolver step: the set of symlink
positions never grows (`force_create` only creates directories and deletes
non-directory entries) and `seen_objects` only grows. -/
def SOk (st st' : RSt) : Prop :=
  List.Sublist (symPosT st'.root) (symPosT st.root) ∧
    ∀ q ∈ st.seen, q ∈ st'.seen

/-- Post-state invariant of a resolver result. -/
def ROk (st : RSt)
    (r : Except RErr (RSt × Option FType × Option (List String))) : Prop :=
  match r with
  | .error _ => True
  | .ok (st', _, _) => SOk st st'

/-! # Theorems -/

/-- C1: Cache key computation is deterministic: `generate_key` is a pure
function of the sanitized configuration tree, so for any serializer and any
hash function, two computations on equal inputs return the same hex digest
string. -/
theorem generate_key_deterministic
    (dumps : Value → List Nat) (sha256hex : List Nat → String)
    (v₁ v₂ : Value) (h : v₁ = v₂) :
    generate_key dumps sha256hex v₁ = generate_key dumps sha256hex v₂ := by
  rw [h]

theorem generate_key_deterministic_witness :
    generate_key (fun _ => [0]) (fun _ => "digest")
        (Value.map [("a", Value.int 1)])
      = generate_key (fun _ => [0]) (fun _ => "digest")
        (Value.map [("a", Value.int 1)]) :=
  generate_key_deterministic (fun _ => [0]) (fun _ => "digest")
    (Value.map [("a", Value.int 1)]) (Value.map [("a", Value.int 1)]) rfl

/-- Entry lists that are permutations of each other with unique names sort to
the same list. -/
theorem insertionSort_entry_eq_of_perm
    {idx₁ idx₂ : List IndexEntry} (hperm : idx₁.Perm idx₂)
    (hnodup : (idx₁.map IndexEntry.name).Nodup) :
    List.insertionSort entryNameLe idx₁ = List.insertionSort entryNameLe idx₂ := by
  have hstrict : ∀ (idx : List IndexEntry), (idx.map IndexEntry.name).Nodup →
      (List.insertionSort entryNameLe idx).Sorted entryNameLtEq := by
    intro idx hn
    have hsorted : (List.insertionSort entryNameLe idx).Sorted entryNameLe :=
      List.sorted_insertionSort entryNameLe idx
    have hpermS : (List.insertionSort entryNameLe idx).Perm idx :=
      List.perm_insertionSort entryNameLe idx
    have hnS : ((List.insertionSort entryNameLe idx).map IndexEntry.name).Nodup :=
      (hpermS.map IndexEntry.name).nodup_iff.mpr hn
    have hne : (List.insertionSort entryNameLe idx).Pairwise
        (fun a b => a.name ≠ b.name) :=
      List.pairwise_map.mp hnS
    exact (hsorted.and hne).imp
      (fun {a b} h => Or.inl (lt_of_le_of_ne h.1 h.2))
  have hnodup₂ : (idx₂.map IndexEntry.name).Nodup :=
    (hperm.map IndexEntry.name).nodup_iff.mp hnodup
  exact List.eq_of_perm_of_sorted
    (((List.perm_insertionSort entryNameLe idx₁).trans hperm).trans
      (List.perm_insertionSort entryNameLe idx₂).symm)
    (hstrict idx₁ hnodup) (hstrict idx₂ hnodup₂)

/-- C2: Directory serialization is canonical: `_get_digest` serializes the
index into three lists (subdirectories, files, symlinks), each sorted by name,
so any two directories with equal logical contents (the same set of
name/type/digest/target/executable-flag entries, names unique) produce the
identical serialized message and hence the same digest, for any choice of the
store's hash function. -/
theorem _get_digest_canonical
    (idx₁ idx₂ : List IndexEntry) (hperm : idx₁.Perm idx₂)
    (hnodup : (idx₁.map IndexEntry.name).Nodup) :
    getDirectoryMsg idx₁ = getDirectoryMsg idx₂ ∧
    ∀ add_object : DirectoryMsg → String × Nat,
      _get_digest add_object idx₁ = _get_digest add_object idx₂ := by
  have h := insertionSort_entry_eq_of_perm hperm hnodup
  constructor
  · unfold getDirectoryMsg
    rw [h]
  · intro add_object
    unfold _get_digest getDirectoryMsg
    rw [h]

theorem _get_digest_canonical_witness :
    getDirectoryMsg
        [{ name := "b", type := FType.regularFile, digest := "d1" },
         { name := "a", type := FType.symlink, target := "b" }]
      = getDirectoryMsg
        [{ name := "a", type := FType.symlink, target := "b" },
         { name := "b", type := FType.regularFile, digest := "d1" }] :=
  (_get_digest_canonical
    [{ name := "b", type := FType.regularFile, digest := "d1" },
     { name := "a", type := FType.symlink, target := "b" }]
    [{ name := "a", type := FType.symlink, target := "b" },
     { name := "b", type := FType.regularFile, digest := "d1" }]
    (List.Perm.swap _ _ _) (by decide)).1

/-- C9: `list_artifacts()` returns the refs in non-decreasing mtime order —
the sorted pair list is pairwise non-decreasing in its mtime component — and
the result does not depend on the order in which the underlying `(mtime, ref)`
pairs were enumerated. -/
theorem list_artifacts_lru_order
    (pairs pairs' : List (Nat × String)) (hperm : pairs.Perm pairs') :
    (List.insertionSort mtimeRefLe pairs).Pairwise
        (fun a b => a.1 ≤ b.1) ∧
    list_artifacts pairs = list_artifacts pairs' := by
  constructor
  · exact (List.sorted_insertionSort mtimeRefLe pairs).imp
      (fun {a b} h => by
        rcases h with h | ⟨h, _⟩
        · exact le_of_lt h
        · exact le_of_eq h)
  · unfold list_artifacts
    rw [List.eq_of_perm_of_sorted
      (((List.perm_insertionSort mtimeRefLe pairs).trans hperm).trans
        (List.perm_insertionSort mtimeRefLe pairs').symm)
      (List.sorted_insertionSort mtimeRefLe pairs)
      (List.sorted_insertionSort mtimeRefLe pairs')]

theorem list_artifacts_lru_order_witness :
    (List.insertionSort mtimeRefLe [(5, "new"), (1, "old")]).Pairwise
        (fun a b => a.1 ≤ b.1) ∧
    list_artifacts [(5, "new"), (1, "old")]
      = list_artifacts [(1, "old"), (5, "new")] :=
  list_artifacts_lru_order [(5, "new"), (1, "old")] [(1, "old"), (5, "new")]
    (List.Perm.swap _ _ _)

/-- Pushing preserves sortedness of the ready queue. -/
theorem readyQueueOf_sorted (elts : List QElement) :
    (readyQueueOf elts).Sorted readyKeyLe := by
  suffices h : ∀ q : List (Nat × QElement), q.Sorted readyKeyLe →
      (elts.foldl _push_ready q).Sorted readyKeyLe by
    exact h [] List.sorted_nil
  induction elts with
  | nil => intro q hq; exact hq
  | cons e rest ih =>
    intro q hq
    exact ih (_push_ready q e) (hq.orderedInsert (e.unique_id, e) q)

/-- Every entry of the ready queue carries its element's unique id as key. -/
theorem readyQueueOf_key (elts : List QElement) :
    ∀ p ∈ readyQueueOf elts, p.1 = p.2.unique_id := by
  suffices h : ∀ q : List (Nat × QElement), (∀ p ∈ q, p.1 = p.2.unique_id) →
      ∀ p ∈ elts.foldl _push_ready q, p.1 = p.2.unique_id by
    exact h [] (by intro p hp; cases hp)
  induction elts with
  | nil => intro q hq; exact hq
  | cons e rest ih =>
    intro q hq
    refine ih (_push_ready q e) ?_
    intro p hp
    rcases (List.mem_orderedInsert readyKeyLe).mp hp with h | h
    · rw [h]
    · exact hq p h

/-- `harvest_jobs` pops the first `tokens` entries of the (sorted) queue. -/
theorem harvest_jobs_eq_take :
    ∀ (tokens : Nat) (q : List (Nat × QElement)),
      harvest_jobs tokens q = (q.take tokens).map Prod.snd := by
  intro tokens q
  induction q generalizing tokens with
  | nil => cases tokens <;> rfl
  | cons e rest ih =>
    cases tokens with
    | zero => rfl
    | succ t => simp [harvest_jobs, ih t]

/-- C8 (amended): within one queue, jobs are started in a deterministic order,
namely ascending element unique id — the ready queue is a heap keyed by
`_unique_id`, so `harvest_jobs` returns the ready elements sorted by unique
id.  This order is *not* derived from the build plan's depth-sorted order; see
the counterexample. -/
theorem harvest_jobs_unique_id_order
    (elts : List QElement) (tokens : Nat) :
    (harvest_jobs tokens (readyQueueOf elts)).Pairwise
      (fun a b => a.unique_id ≤ b.unique_id) := by
  rw [harvest_jobs_eq_take]
  have hs : ((readyQueueOf elts).take tokens).Pairwise readyKeyLe :=
    (readyQueueOf_sorted elts).sublist (List.take_sublist tokens _)
  have hk : ∀ p ∈ (readyQueueOf elts).take tokens, p.1 = p.2.unique_id :=
    fun p hp => readyQueueOf_key elts p (List.take_subset tokens _ hp)
  rw [List.pairwise_map]
  refine List.Pairwise.imp_of_mem ?_ hs
  intro a b ha hb hab
  have h₁ := hk a ha
  have h₂ := hk b hb
  unfold readyKeyLe at hab
  omega

/-- C10: `Queue._job_done` first releases the reserved resources; then, if the
`done()` hook raises (a `BstError` or any other exception), the element is
recorded in `failed_elements` and never placed on the done queue; otherwise it
is placed on the done queue and appended to exactly one of the skipped,
processed or failed lists — skipped when the status is `SKIPPED` (or the job
was terminated), processed when `OK`, failed otherwise. -/
theorem _job_done_bookkeeping
    (resweight : Nat) (st : QueueSt) (elt : QElement)
    (status : JobStatus) (terminated : Bool) (done_outcome : DoneOutcome) :
    ((_job_done resweight st elt status terminated done_outcome).tokens
        = st.tokens + resweight) ∧
    (done_outcome ≠ DoneOutcome.ok →
      (_job_done resweight st elt status terminated done_outcome).failed_elements
          = st.failed_elements ++ [elt] ∧
      (_job_done resweight st elt status terminated done_outcome).done_queue
          = st.done_queue ∧
      (_job_done resweight st elt status terminated done_outcome).processed_elements
          = st.processed_elements ∧
      (_job_done resweight st elt status terminated done_outcome).skipped_elements
          = st.skipped_elements) ∧
    (done_outcome = DoneOutcome.ok →
      (_job_done resweight st elt status terminated done_outcome).done_queue
          = st.done_queue ++ [elt] ∧
      ((status = JobStatus.skipped ∨ terminated = true) →
        (_job_done resweight st elt status terminated done_outcome).skipped_elements
            = st.skipped_elements ++ [elt] ∧
        (_job_done resweight st elt status terminated done_outcome).processed_elements
            = st.processed_elements ∧
        (_job_done resweight st elt status terminated done_outcome).failed_elements
            = st.failed_elements) ∧
      ((status = JobStatus.ok ∧ terminated = false) →
        (_job_done resweight st elt status terminated done_outcome).processed_elements
            = st.processed_elements ++ [elt] ∧
        (_job_done resweight st elt status terminated done_outcome).skipped_elements
            = st.skipped_elements ∧
        (_job_done resweight st elt status terminated done_outcome).failed_elements
            = st.failed_elements) ∧
      ((status = JobStatus.fail ∧ terminated = false) →
        (_job_done resweight st elt status terminated done_outcome).failed_elements
            = st.failed_elements ++ [elt] ∧
        (_job_done resweight st elt status terminated done_outcome).skipped_elements
            = st.skipped_elements ∧
        (_job_done resweight st elt status terminated done_outcome).processed_elements
            = st.processed_elements)) := by
  cases done_outcome <;> cases status <;> cases terminated <;>
    simp [_job_done]

theorem _job_done_bookkeeping_witness :
    ((_job_done 2 ⟨[], [], [], [], 3⟩ ⟨7, "e"⟩ JobStatus.fail false
        DoneOutcome.bstError).failed_elements = [] ++ [⟨7, "e"⟩] ∧
      (_job_done 2 ⟨[], [], [], [], 3⟩ ⟨7, "e"⟩ JobStatus.fail false
        DoneOutcome.bstError).done_queue = []) ∧
    ((_job_done 2 ⟨[], [], [], [], 3⟩ ⟨7, "e"⟩ JobStatus.ok false
        DoneOutcome.ok).done_queue = [] ++ [⟨7, "e"⟩] ∧
      (_job_done 2 ⟨[], [], [], [], 3⟩ ⟨7, "e"⟩ JobStatus.ok false
        DoneOutcome.ok).processed_elements = [] ++ [⟨7, "e"⟩]) := by
  have h₁ := _job_done_bookkeeping 2 ⟨[], [], [], [], 3⟩ ⟨7, "e"⟩
    JobStatus.fail false DoneOutcome.bstError
  have h₂ := _job_done_bookkeeping 2 ⟨[], [], [], [], 3⟩ ⟨7, "e"⟩
    JobStatus.ok false DoneOutcome.ok
  exact ⟨⟨(h₁.2.1 (by decide)).1, (h₁.2.1 (by decide)).2.1⟩,
    ⟨(h₂.2.2 rfl).1, ((h₂.2.2 rfl).2.2.1 ⟨rfl, rfl⟩).1⟩⟩


/-- Counting helper: a predicate-weakening with a concrete witness where the
two predicates differ makes the count strictly smaller. -/
theorem countP_lt_of_witness {α : Type} {l : List α} {p q : α → Bool}
    (himp : ∀ a, q a = true → p a = true) {a : α} (ha : a ∈ l)
    (hpa : p a = true) (hqa : q a = false) : l.countP q < l.countP p := by
  induction l with
  | nil => cases ha
  | cons b t ih =>
    have hmono : t.countP q ≤ t.countP p :=
      List.countP_mono_left (fun x _ hx => himp x hx)
    rcases List.mem_cons.mp ha with rfl | hat
    · rw [List.countP_cons_of_pos _ _ hpa,
        List.countP_cons_of_neg _ _ (by simp [hqa])]
      omega
    · have hlt := ih hat
      by_cases hqb : q b = true
      · rw [List.countP_cons_of_pos _ _ hqb,
          List.countP_cons_of_pos _ _ (himp b hqb)]
        omega
      · rw [List.countP_cons_of_neg _ _ hqb]
        by_cases hpb : p b = true
        · rw [List.countP_cons_of_pos _ _ hpb]
          omega
        · rw [List.countP_cons_of_neg _ _ hpb]
          omega

/-- The number of universe elements not currently being visited: the
termination measure of `plan_element`. -/
def plannerUnseen (univ : List Nat) (st : PlannerSt) : Nat :=
  univ.countP (fun x => !decide (x ∈ st.visiting_elements))

/-- Fuel sufficiency and visiting-set restoration for `plan_element`: provided
every element reachable through dependencies stays inside the finite universe
`univ` and `B` bounds the direct dependency list lengths, any fuel beyond
`(unvisited count) * B` completes — even in the presence of dependency
cycles — and returns the visiting set exactly as it was. -/
theorem planGo_total_aux (g : ElementGraph) (univ : List Nat) (B : Nat)
    (hclosed : ∀ e ∈ univ,
      (∀ d ∈ g.run_deps e, d ∈ univ) ∧ (∀ d ∈ g.build_deps e, d ∈ univ))
    (hB : ∀ e ∈ univ,
      (g.run_deps e).length + 2 ≤ B ∧ (g.build_deps e).length + 2 ≤ B) :
    ∀ fuel : Nat,
      (∀ e depth st, e ∈ univ → (∀ x ∈ st.visiting_elements, x ∈ univ) →
        plannerUnseen univ st * B + 1 ≤ fuel →
        ∃ st', planGo g fuel (.elem e depth) st = some st' ∧
          st'.visiting_elements = st.visiting_elements) ∧
      (∀ es depth st, (∀ x ∈ es, x ∈ univ) →
        (∀ x ∈ st.visiting_elements, x ∈ univ) →
        plannerUnseen univ st * B + es.length + 1 ≤ fuel →
        ∃ st', planGo g fuel (.deps es depth) st = some st' ∧
          st'.visiting_elements = st.visiting_elements) := by
  intro fuel
  induction fuel with
  | zero =>
    constructor
    · intro e depth st _ _ hf
      omega
    · intro es depth st _ _ hf
      omega
  | succ f ih =>
    obtain ⟨ihE, ihL⟩ := ih
    constructor
    · -- plan_element
      intro e depth st he hvis hfuel
      by_cases hmem : e ∈ st.visiting_elements
      · exact ⟨st, by simp [planGo, hmem], rfl⟩
      · -- facts about the main body (`step`)
        have hU1 : plannerUnseen univ
            { st with visiting_elements := st.visiting_elements ++ [e] }
            < plannerUnseen univ st := by
          unfold plannerUnseen
          refine countP_lt_of_witness (a := e) ?_ he ?_ ?_
          · intro a ha
            simp only [Bool.not_eq_true', decide_eq_false_iff_not,
              List.mem_append, List.mem_singleton] at ha ⊢
            exact fun h => ha (Or.inl h)
          · simpa using hmem
          · simp
        have hUpos : 1 ≤ plannerUnseen univ st := by
          unfold plannerUnseen
          have : 0 < List.countP (fun x => !decide (x ∈ st.visiting_elements)) univ :=
            List.countP_pos_iff.mpr ⟨e, he, by simpa using hmem⟩
          omega
        have hUmul : plannerUnseen univ
            { st with visiting_elements := st.visiting_elements ++ [e] } * B + B
            ≤ plannerUnseen univ st * B := by
          have h2 := Nat.mul_le_mul_right (k := B) hU1
          rw [Nat.succ_mul] at h2
          exact h2
        have hvis₁ : ∀ x ∈ st.visiting_elements ++ [e], x ∈ univ := by
          intro x hx
          rcases List.mem_append.mp hx with hx | hx
          · exact hvis x hx
          · rcases List.mem_singleton.mp hx with rfl
            exact he
        have hrunB := (hB e he).1
        have hbuildB := (hB e he).2
        obtain ⟨st₂, h₂, hv₂⟩ := ihL (g.run_deps e) depth
          { st with visiting_elements := st.visiting_elements ++ [e] }
          (hclosed e he).1 hvis₁ (by omega)
        have hvis₂ : ∀ x ∈ st₂.visiting_elements, x ∈ univ := by
          rw [hv₂]; exact hvis₁
        have hU₂ : plannerUnseen univ st₂ = plannerUnseen univ
            { st with visiting_elements := st.visiting_elements ++ [e] } := by
          unfold plannerUnseen
          rw [hv₂]
        -- the build-dependency pass (skipped when cached)
        have hstep3 : ∃ st₃,
            (if g.cached e then some st₂
             else planGo g f (.deps (g.build_deps e) (depth + 1)) st₂) = some st₃ ∧
            st₃.visiting_elements = st.visiting_elements ++ [e] := by
          by_cases hc : g.cached e
          · exact ⟨st₂, by simp [hc], hv₂⟩
          · obtain ⟨st₃, h₃, hv₃⟩ := ihL (g.build_deps e) (depth + 1) st₂
              (hclosed e he).2 hvis₂ (by rw [hU₂]; omega)
            exact ⟨st₃, by simp [hc, h₃], hv₃.trans hv₂⟩
        obtain ⟨st₃, h₃, hv₃⟩ := hstep3
        have herase : st₃.visiting_elements.erase e = st.visiting_elements := by
          rw [hv₃, List.erase_append_right _ hmem, List.erase_cons_head,
            List.append_nil]
        rcases hlk : lookupDepth st.depth_map e with _ | prev
        · refine ⟨{ depth_map := updateDepth st₃.depth_map e depth,
                    visiting_elements := st₃.visiting_elements.erase e }, ?_, herase⟩
          simp [planGo, hmem, hlk, h₂, h₃]
        · by_cases hle : depth ≤ prev
          · refine ⟨st, ?_, rfl⟩
            simp [planGo, hmem, hlk, hle]
          · refine ⟨{ depth_map := updateDepth st₃.depth_map e depth,
                      visiting_elements := st₃.visiting_elements.erase e }, ?_, herase⟩
            simp [planGo, hmem, hlk, hle, h₂, h₃]
    · -- the dependency loop
      intro es depth st hes hvis hfuel
      cases es with
      | nil => exact ⟨st, by simp [planGo], rfl⟩
      | cons e rest =>
        simp only [List.length_cons] at hfuel
        obtain ⟨st', h₁, hv₁⟩ := ihE e depth st (hes e (List.mem_cons_self e rest))
          hvis (by omega)
        have hU' : plannerUnseen univ st' = plannerUnseen univ st := by
          unfold plannerUnseen
          rw [hv₁]
        obtain ⟨st'', h₂, hv₂⟩ := ihL rest depth st'
          (fun x hx => hes x (List.mem_cons_of_mem e hx))
          (by rw [hv₁]; exact hvis)
          (by rw [hU']; omega)
        exact ⟨st'', by simp [planGo, h₁, h₂], hv₂.trans hv₁⟩

/-- `updateDepth` keeps the key list, appending the key only when new. -/
theorem updateDepth_map_fst (m : List (Nat × Nat)) (e d : Nat) :
    (updateDepth m e d).map Prod.fst =
      if e ∈ m.map Prod.fst then m.map Prod.fst else m.map Prod.fst ++ [e] := by
  induction m with
  | nil => simp [updateDepth]
  | cons p rest ih =>
    by_cases hpe : p.1 = e
    · simp [updateDepth, hpe]
    · simp only [updateDepth, if_neg hpe, List.map_cons, ih]
      by_cases hmem : e ∈ rest.map Prod.fst
      · rw [if_pos hmem, if_pos (List.mem_cons_of_mem _ hmem)]
      · have hne : ¬ e ∈ p.1 :: rest.map Prod.fst := by
          intro hc
          rcases List.mem_cons.mp hc with hc | hc
          · exact hpe hc.symm
          · exact hmem hc
        rw [if_neg hmem, if_neg hne, List.cons_append]

/-- `updateDepth` preserves uniqueness of the depth-map keys. -/
theorem updateDepth_keysNodup {m : List (Nat × Nat)} (e d : Nat)
    (hk : (m.map Prod.fst).Nodup) : ((updateDepth m e d).map Prod.fst).Nodup := by
  rw [updateDepth_map_fst]
  by_cases hmem : e ∈ m.map Prod.fst
  · rwa [if_pos hmem]
  · rw [if_neg hmem]
    rw [List.nodup_append]
    exact ⟨hk, List.nodup_singleton e, by
      intro x hx hx'
      rcases List.mem_singleton.mp hx' with rfl
      exact hmem hx⟩

/-- Every `plan_element` recursion preserves uniqueness of depth-map keys. -/
theorem planGo_keysNodup (g : ElementGraph) :
    ∀ (fuel : Nat) (c : PlanCall) (st st' : PlannerSt),
      planGo g fuel c st = some st' →
      (st.depth_map.map Prod.fst).Nodup →
      (st'.depth_map.map Prod.fst).Nodup := by
  intro fuel
  induction fuel with
  | zero =>
    intro c st st' h
    simp [planGo] at h
  | succ f ih =>
    intro c st st' h hk
    cases c with
    | deps es depth =>
      cases es with
      | nil =>
        simp [planGo] at h
        exact h ▸ hk
      | cons e rest =>
        simp only [planGo] at h
        rcases h₁ : planGo g f (.elem e depth) st with _ | st₁ <;> rw [h₁] at h
        · simp at h
        · exact ih _ st₁ st' h (ih _ st st₁ h₁ hk)
    | elem e depth =>
      simp only [planGo] at h
      by_cases hmem : e ∈ st.visiting_elements
      · rw [if_pos hmem] at h
        cases h
        exact hk
      · rw [if_neg hmem] at h
        have hstep : ∀ st'' : PlannerSt,
            ((match planGo g f (.deps (g.run_deps e) depth)
                { st with visiting_elements := st.visiting_elements ++ [e] } with
             | none => none
             | some st₂ =>
               match
                 (if g.cached e then some st₂
                  else planGo g f (.deps (g.build_deps e) (depth + 1)) st₂) with
               | none => none
               | some st₃ =>
                 some { depth_map := updateDepth st₃.depth_map e depth,
                        visiting_elements := st₃.visiting_elements.erase e }) :
              Option PlannerSt)
              = some st'' →
            (st''.depth_map.map Prod.fst).Nodup := by
          intro st'' hh
          split at hh
          · simp at hh
          · next st₂ h₂ =>
            have hk₂ : (st₂.depth_map.map Prod.fst).Nodup :=
              ih _ _ st₂ h₂ hk
            split at hh
            · simp at hh
            · next st₃ h₃ =>
              have hk₃ : (st₃.depth_map.map Prod.fst).Nodup := by
                by_cases hc : g.cached e
                · rw [if_pos hc] at h₃
                  cases h₃
                  exact hk₂
                · rw [if_neg hc] at h₃
                  exact ih _ st₂ st₃ h₃ hk₂
              cases hh
              exact updateDepth_keysNodup e depth hk₃
        split at h
        · split at h
          · cases h
            exact hk
          · exact hstep st' h
        · exact hstep st' h

/-- With unique keys, membership determines the lookup. -/
theorem lookupDepth_eq_some_of_mem {m : List (Nat × Nat)}
    (hk : (m.map Prod.fst).Nodup) {e d : Nat} (hmem : (e, d) ∈ m) :
    lookupDepth m e = some d := by
  induction m with
  | nil => cases hmem
  | cons p rest ih =>
    rcases List.mem_cons.mp hmem with heq | hmem'
    · rw [← heq]
      simp [lookupDepth, List.find?]
    · have hk' := List.nodup_cons.mp hk
      have hne : (p.1 == e) = false := by
        apply beq_eq_false_iff_ne.mpr
        intro hcontra
        exact hk'.1 (hcontra ▸ List.mem_map_of_mem Prod.fst hmem')
      simp only [lookupDepth, List.find?, hne]
      exact ih hk'.2 hmem'

/-- The lookup succeeds exactly for recorded elements. -/
theorem lookupDepth_isSome_iff {m : List (Nat × Nat)} {e : Nat} :
    (lookupDepth m e).isSome ↔ ∃ d, (e, d) ∈ m := by
  unfold lookupDepth
  rw [Option.isSome_map']
  rw [List.find?_isSome]
  constructor
  · rintro ⟨p, hp, hpe⟩
    exact ⟨p.2, by rwa [show (e, p.2) = p from Prod.ext (beq_iff_eq.mp hpe).symm rfl]⟩
  · rintro ⟨d, hd⟩
    exact ⟨(e, d), hd, beq_self_eq_true e⟩

/-- Stability of the depth sort: the entries of any fixed depth appear in the
sorted list exactly in their depth-map insertion order. -/
theorem insertionSort_depth_filter (m : List (Nat × Nat)) (d : Nat) :
    (List.insertionSort depthGe m).filter (fun p => p.2 == d)
      = m.filter (fun p => p.2 == d) := by
  have hpair : (m.filter (fun p => p.2 == d)).Pairwise depthGe := by
    apply List.pairwise_of_forall_mem_list
    intro a ha b hb
    have ha' := (List.mem_filter.mp ha).2
    have hb' := (List.mem_filter.mp hb).2
    unfold depthGe
    rw [beq_iff_eq.mp ha', beq_iff_eq.mp hb']
  have hsub : List.Sublist (m.filter (fun p => p.2 == d))
      (List.insertionSort depthGe m) :=
    List.sublist_insertionSort hpair (List.filter_sublist m)
  have h₁ : List.Sublist ((m.filter (fun p => p.2 == d)).filter (fun p => p.2 == d))
      ((List.insertionSort depthGe m).filter (fun p => p.2 == d)) :=
    hsub.filter _
  have hc : (m.filter (fun p => p.2 == d)).filter (fun p => p.2 == d)
      = m.filter (fun p => p.2 == d) :=
    List.filter_eq_self.mpr (fun a ha => (List.mem_filter.mp ha).2)
  rw [hc] at h₁
  have hperm : ((List.insertionSort depthGe m).filter (fun p => p.2 == d)).Perm
      (m.filter (fun p => p.2 == d)) :=
    (List.perm_insertionSort depthGe m).filter _
  exact (h₁.eq_of_length hperm.length_eq.symm).symm

/-- C7: the build plan is depth-sorted.  For every dependency graph whose
dependencies stay inside a finite universe, `plan()` (with `plan_cached`
false) terminates given enough fuel — elements reachable again while already
being visited (dependency cycles) return early instead of looping — and
returns exactly the recorded elements that are not cached, ordered by greatest
recorded build-depth first; entries of equal depth keep their depth-map
insertion order (Python's `sorted` is stable, as is the embedded insertion
sort). -/
theorem plan_depth_sorted (g : ElementGraph) (univ roots : List Nat)
    (B fuel : Nat)
    (hclosed : ∀ e ∈ univ,
      (∀ d ∈ g.run_deps e, d ∈ univ) ∧ (∀ d ∈ g.build_deps e, d ∈ univ))
    (hB : ∀ e ∈ univ,
      (g.run_deps e).length + 2 ≤ B ∧ (g.build_deps e).length + 2 ≤ B)
    (hroots : ∀ x ∈ roots, x ∈ univ)
    (hfuel : univ.length * B + roots.length + 1 ≤ fuel) :
    ∃ st result,
      planGo g fuel (.deps roots 0) ⟨[], []⟩ = some st ∧
      plan g fuel roots false = some result ∧
      result.Pairwise (fun a b =>
        (lookupDepth st.depth_map b).getD 0 ≤ (lookupDepth st.depth_map a).getD 0) ∧
      (∀ e, e ∈ result ↔
        ((lookupDepth st.depth_map e).isSome ∧ g.cached e = false)) ∧
      (∀ d, (List.insertionSort depthGe st.depth_map).filter (fun p => p.2 == d)
          = st.depth_map.filter (fun p => p.2 == d)) := by
  have hU0 : plannerUnseen univ (⟨[], []⟩ : PlannerSt) = univ.length := by
    unfold plannerUnseen
    simp
  obtain ⟨st, hst, -⟩ :=
    (planGo_total_aux g univ B hclosed hB fuel).2 roots 0 ⟨[], []⟩ hroots
      (by intro x hx; cases hx) (by rw [hU0]; omega)
  have hkeys : (st.depth_map.map Prod.fst).Nodup :=
    planGo_keysNodup g fuel _ _ _ hst (by simp)
  refine ⟨st,
    ((List.insertionSort depthGe st.depth_map).filter
      (fun item => false || !g.cached item.1)).map Prod.fst,
    hst, by simp [plan, hst], ?_, ?_, ?_⟩
  · -- depth order
    have hsorted : ((List.insertionSort depthGe st.depth_map).filter
        (fun item => false || !g.cached item.1)).Pairwise depthGe :=
      (List.sorted_insertionSort depthGe st.depth_map).filter _
    have hlkAll : ∀ p ∈ (List.insertionSort depthGe st.depth_map).filter
        (fun item => false || !g.cached item.1),
        lookupDepth st.depth_map p.1 = some p.2 := by
      intro p hp
      have hmem : p ∈ st.depth_map :=
        (List.perm_insertionSort depthGe st.depth_map).subset
          (List.mem_of_mem_filter hp)
      exact lookupDepth_eq_some_of_mem hkeys (by
        rw [show ((p.1, p.2) : Nat × Nat) = p from rfl]
        exact hmem)
    rw [List.pairwise_map]
    refine hsorted.imp_of_mem ?_
    intro a b ha hb hab
    rw [hlkAll a ha, hlkAll b hb]
    exact hab
  · -- membership: exactly the recorded non-cached elements
    intro e
    constructor
    · intro he
      obtain ⟨p, hp, hpe⟩ := List.mem_map.mp he
      have hmem : p ∈ st.depth_map :=
        (List.perm_insertionSort depthGe st.depth_map).subset
          (List.mem_of_mem_filter hp)
      have hpred := (List.mem_filter.mp hp).2
      simp only [Bool.false_or, Bool.not_eq_true'] at hpred
      subst hpe
      exact ⟨lookupDepth_isSome_iff.mpr ⟨p.2, hmem⟩, hpred⟩
    · rintro ⟨hsome, hcached⟩
      obtain ⟨d, hd⟩ := lookupDepth_isSome_iff.mp hsome
      refine List.mem_map.mpr ⟨(e, d), List.mem_filter.mpr ⟨?_, ?_⟩, rfl⟩
      · exact ((List.perm_insertionSort depthGe st.depth_map).symm).subset hd
      · simp [hcached]
  · -- stable ties
    intro d
    exact insertionSort_depth_filter st.depth_map d

theorem plan_depth_sorted_witness :
    ∃ st result,
      planGo ⟨fun e => if e = 1 then [2] else [1],
              fun e => if e = 1 then [2] else [],
              fun _ => false⟩ 8 (.deps [1] 0) ⟨[], []⟩ = some st ∧
      plan ⟨fun e => if e = 1 then [2] else [1],
            fun e => if e = 1 then [2] else [],
            fun _ => false⟩ 8 [1] false = some result ∧
      result.Pairwise (fun a b =>
        (lookupDepth st.depth_map b).getD 0 ≤ (lookupDepth st.depth_map a).getD 0) ∧
      (∀ e, e ∈ result ↔
        ((lookupDepth st.depth_map e).isSome ∧
          (fun _ : Nat => false) e = false)) ∧
      (∀ d, (List.insertionSort depthGe st.depth_map).filter (fun p => p.2 == d)
          = st.depth_map.filter (fun p => p.2 == d)) :=
  plan_depth_sorted
    ⟨fun e => if e = 1 then [2] else [1],
     fun e => if e = 1 then [2] else [],
     fun _ => false⟩ [1, 2] [1] 3 8
    (by decide) (by decide) (by decide) (by decide)

/-- C8 counterexample: take a standalone ready element with unique id 1 and a
ready build dependency (of a third element) with unique id 2.  The build plan
orders the dependency first (depth 1 before depth 0), but `harvest_jobs` pops
the heap keyed by `_unique_id` and starts element 1 first: the job order does
not follow the plan's depth-sorted order. -/
theorem harvest_jobs_not_plan_order :
    plan ⟨fun _ => [], fun e => if e = 3 then [2] else [], fun _ => false⟩
        20 [1, 3] false = some [2, 1, 3] ∧
    (harvest_jobs 5 (readyQueueOf [⟨1, "x"⟩, ⟨2, "z"⟩])).map QElement.unique_id
      = [1, 2] ∧
    ¬ ([1, 2] = [2, 1, 3].filter (fun e => [1, 2].contains e)) := by
  refine ⟨by decide, by decide, by decide⟩

/-- Setting a key makes it the looked-up entry. -/
theorem lookupEntry_dictSet_self (es : Entries) (f : String) (node : CNode) :
    lookupEntry (dictSet es f node) f = some node := by
  induction es with
  | nil => simp [dictSet, lookupEntry, List.find?]
  | cons kv rest ih =>
    by_cases h : kv.1 = f
    · simp [dictSet, h, lookupEntry, List.find?]
    · simp only [dictSet, if_neg h, lookupEntry, List.find?,
        beq_eq_false_iff_ne.mpr h]
      exact ih

/-- Setting a key leaves other lookups unchanged. -/
theorem lookupEntry_dictSet_ne (es : Entries) (f g : String) (node : CNode)
    (h : g ≠ f) : lookupEntry (dictSet es f node) g = lookupEntry es g := by
  induction es with
  | nil =>
    simp [dictSet, lookupEntry, List.find?, beq_eq_false_iff_ne.mpr h.symm]
  | cons kv rest ih =>
    by_cases hk : kv.1 = f
    · subst hk
      simp [dictSet, lookupEntry, List.find?,
        beq_eq_false_iff_ne.mpr (fun hc => h hc.symm)]
    · simp only [dictSet, if_neg hk, lookupEntry, List.find?]
      cases hkg : (kv.1 == g) with
      | true => rfl
      | false => exact ih

/-- Deleting a key leaves other lookups unchanged. -/
theorem lookupEntry_delete_ne (es : Entries) (f g : String) (h : g ≠ f) :
    lookupEntry (delete_entry es f) g = lookupEntry es g := by
  induction es with
  | nil => rfl
  | cons kv rest ih =>
    by_cases hk : kv.1 = f
    · subst hk
      simp only [delete_entry, List.eraseP_cons, beq_self_eq_true,
        cond_true, lookupEntry, List.find?,
        beq_eq_false_iff_ne.mpr (fun hc : kv.1 = g => h hc.symm)]
    · simp only [delete_entry, List.eraseP_cons,
        beq_eq_false_iff_ne.mpr hk, cond_false]
      simp only [lookupEntry, List.find?] at ih ⊢
      cases hkg : (kv.1 == g) with
      | true => rfl
      | false => exact ih

/-- C3: the import overlay rule for a file or symlink imported at a name that
already exists.  If the existing entry is a non-empty directory, nothing is
written — the entries are unchanged — and the path is recorded in the
`ignored` list (twice, in fact: once by `_check_replacement` and once by the
caller).  If the existing entry is an empty directory, a file or a symlink, it
is deleted and the path recorded in `overwritten`, and the incoming entry is
written and the path recorded in `files_written`; all other names are
untouched. -/
theorem import_overlay_rule (es : Entries) (f : String) (pfx : String)
    (src : CNode) (r : FileListResult)
    (hsrc : (∃ d x, src = CNode.file d x) ∨ (∃ t, src = CNode.symlink t)) :
    (∀ sub, lookupEntry es f = some (.dir sub) → sub ≠ [] →
      import_cas_leaf es f pfx src r
        = (es, { r with ignored :=
            r.ignored ++ [pjoin pfx f, pjoin pfx f] })) ∧
    (∀ e₀, lookupEntry es f = some e₀ →
      (match e₀ with | .dir sub => sub = [] | _ => True) →
      lookupEntry (import_cas_leaf es f pfx src r).1 f = some src ∧
      (∀ g, g ≠ f →
        lookupEntry (import_cas_leaf es f pfx src r).1 g
          = lookupEntry es g) ∧
      (import_cas_leaf es f pfx src r).2
        = { r with
              files_written := r.files_written ++ [pjoin pfx f],
              overwritten := r.overwritten ++ [pjoin pfx f] }) := by
  constructor
  · intro sub hlk hne
    have hie : sub.isEmpty = false := by
      cases sub with
      | nil => exact absurd rfl hne
      | cons a l => rfl
    simp [import_cas_leaf, _check_replacement, hlk, hie, List.append_assoc]
  · intro e₀ hlk hcond
    have hcr : _check_replacement es f pfx r
        = (true, delete_entry es f,
           { r with overwritten := r.overwritten ++ [pjoin pfx f] }) := by
      cases e₀ with
      | dir sub =>
        have hsub : sub = [] := hcond
        subst hsub
        simp [_check_replacement, hlk]
      | file d x => simp [_check_replacement, hlk]
      | symlink t => simp [_check_replacement, hlk]
    rcases hsrc with ⟨d, x, rfl⟩ | ⟨t, rfl⟩ <;>
      exact ⟨by simp [import_cas_leaf, hcr, lookupEntry_dictSet_self],
        fun g hg => by
          simp only [import_cas_leaf, hcr, if_pos]
          rw [lookupEntry_dictSet_ne _ _ _ _ hg, lookupEntry_delete_ne _ _ _ hg],
        by simp [import_cas_leaf, hcr]⟩

theorem import_overlay_rule_witness :
    (import_cas_leaf [("x", CNode.dir [("y", CNode.file "" false)])] "x" ""
        (CNode.file "d" false) ⟨[], [], []⟩
      = ([("x", CNode.dir [("y", CNode.file "" false)])],
         { files_written := [], overwritten := [],
           ignored := [] ++ [pjoin "" "x", pjoin "" "x"] })) ∧
    (lookupEntry (import_cas_leaf [("x", CNode.file "old" true)] "x" ""
        (CNode.file "d" false) ⟨[], [], []⟩).1 "x"
      = some (CNode.file "d" false) ∧
     (∀ g, g ≠ "x" →
        lookupEntry (import_cas_leaf [("x", CNode.file "old" true)] "x" ""
          (CNode.file "d" false) ⟨[], [], []⟩).1 g
          = lookupEntry [("x", CNode.file "old" true)] g) ∧
     (import_cas_leaf [("x", CNode.file "old" true)] "x" ""
        (CNode.file "d" false) ⟨[], [], []⟩).2
       = { files_written := [] ++ [pjoin "" "x"],
           overwritten := [] ++ [pjoin "" "x"], ignored := [] }) := by
  constructor
  · exact (import_overlay_rule [("x", CNode.dir [("y", CNode.file "" false)])]
      "x" "" (CNode.file "d" false) ⟨[], [], []⟩
      (Or.inl ⟨"d", false, rfl⟩)).1 [("y", CNode.file "" false)] rfl
      (by simp)
  · exact (import_overlay_rule [("x", CNode.file "old" true)]
      "x" "" (CNode.file "d" false) ⟨[], [], []⟩
      (Or.inl ⟨"d", false, rfl⟩)).2 (CNode.file "old" true) rfl trivial

/-- C6: `descend` and an existing non-directory component.  The spec requires
a `NOT_A_DIRECTORY` error, and `FileBasedDirectory.descend` does raise it; but
`CasBasedDirectory.descend` evaluates `subdirectory_spec[0]` — an undefined
variable — in that branch, so Python raises `NameError` instead of the
documented `VirtualDirectoryError`.  The missing-component errors work as
specified on both variants. -/
theorem descend_file_component_name_error :
    casDescend [("f", CNode.file "d" false)] ["f"] false
      = .error DescendErr.nameError ∧
    casDescend [("f", CNode.file "d" false)] ["g"] false
      = .error DescendErr.missing ∧
    fsDescend [("f", FSNode.file)] ["f"] false
      = .error DescendErr.notADirectory ∧
    fsDescend [("f", FSNode.file)] ["g"] false
      = .error DescendErr.missing :=
  ⟨rfl, rfl, rfl, rfl⟩

/-- C5: reaching a symlink entry already recorded in `seen_objects` raises
`INFINITE_SYMLINK`, whatever the flags, the path or the remaining fuel; in
particular resolving the self-symlink `a -> a` from a fresh resolver raises
`INFINITE_SYMLINK` rather than returning a value. -/
theorem resolve_infinite_symlink :
    (∀ (ar fc : Bool) (fuel : Nat) (st : RSt) (name : String)
        (dpath : List String) (target : String),
      lookupEntry ((treeAt st.root dpath).getD []) name
        = some (.symlink target) →
      (dpath, name) ∈ st.seen →
      resolveGo ar fc (fuel + 1) (.resolve name dpath) st
        = some (.error RErr.infiniteSymlink)) ∧
    resolver_resolve true false 5 [("a", CNode.symlink "a")] "a" []
      = some (.error RErr.infiniteSymlink) := by
  constructor
  · intro ar fc fuel st name dpath target hlk hseen
    simp [resolveGo, hlk, hseen]
  · rfl

theorem resolve_infinite_symlink_witness :
    resolveGo true false 1 (.resolve "a" [])
        ⟨[("a", CNode.symlink "a")], [([], "a")]⟩
      = some (.error RErr.infiniteSymlink) :=
  resolve_infinite_symlink.1 true false 0
    ⟨[("a", CNode.symlink "a")], [([], "a")]⟩ "a" [] "a" rfl (by simp)

/-- `symPosT` of a cons splits into the head's contribution and the tail. -/
theorem symPosT_cons (kv : String × CNode) (l : Entries) :
    symPosT (kv :: l) = symPosT [kv] ++ symPosT l := by
  obtain ⟨n, node⟩ := kv
  cases node <;> simp [symPosT]

/-- `symPosT` distributes over append. -/
theorem symPosT_append (es₁ es₂ : Entries) :
    symPosT (es₁ ++ es₂) = symPosT es₁ ++ symPosT es₂ := by
  induction es₁ with
  | nil => simp [symPosT]
  | cons kv tl ih =>
    rw [List.cons_append, symPosT_cons, symPosT_cons kv tl, ih,
      List.append_assoc]

/-- Removing entries can only remove symlink positions. -/
theorem symPosT_sublist {es₁ es₂ : Entries} (h : List.Sublist es₁ es₂) :
    List.Sublist (symPosT es₁) (symPosT es₂) := by
  induction h with
  | slnil => exact List.Sublist.refl _
  | @cons l₁ l₂ kv _ ih =>
    rw [symPosT_cons kv l₂]
    exact ih.trans (List.sublist_append_right _ _)
  | @cons₂ l₁ l₂ kv _ ih =>
    rw [symPosT_cons kv l₁, symPosT_cons kv l₂]
    exact (List.Sublist.refl _).append ih

/-- Appending a fresh empty directory adds no symlink positions. -/
theorem symPosT_append_dir (es : Entries) (c : String) :
    symPosT (es ++ [(c, CNode.dir [])]) = symPosT es := by
  rw [symPosT_append]
  simp [symPosT]

/-- `delete_entry` only removes symlink positions. -/
theorem symPosT_delete_sublist (es : Entries) (name : String) :
    List.Sublist (symPosT (delete_entry es name)) (symPosT es) :=
  symPosT_sublist (List.eraseP_sublist es)

/-- A local edit that only removes symlink positions does so globally, at any
path. -/
theorem symPosT_updateAt {f : Entries → Entries}
    (hf : ∀ es, List.Sublist (symPosT (f es)) (symPosT es)) :
    ∀ (p : List String) (es : Entries),
      List.Sublist (symPosT (updateAt es p f)) (symPosT es) := by
  intro p
  induction p with
  | nil => intro es; exact hf es
  | cons c rest ih =>
    intro es
    induction es with
    | nil => exact List.Sublist.refl _
    | cons kv tl ihes =>
      have hmap : updateAt (kv :: tl) (c :: rest) f
          = (if kv.1 = c then
              match kv.2 with
              | .dir sub => (kv.1, .dir (updateAt sub rest f))
              | _ => kv
            else kv) :: updateAt tl (c :: rest) f := by
        simp [updateAt]
      rw [hmap, symPosT_cons, symPosT_cons kv tl]
      refine List.Sublist.append ?_ ihes
      by_cases hk : kv.1 = c
      · obtain ⟨n, node⟩ := kv
        subst hk
        cases node with
        | dir sub =>
          simp only [eq_self_iff_true, if_true, symPosT, List.append_nil]
          exact (ih sub).map _
        | file d x => simp
        | symlink t => simp
      · rw [if_neg hk]

/-- A symlink found by a directory lookup is among the tree's symlink
positions. -/
theorem mem_symPosT_of_lookup :
    ∀ (es : Entries) (name t : String),
      lookupEntry es name = some (.symlink t) →
      (([], name), t) ∈ symPosT es := by
  intro es
  induction es with
  | nil => intro name t h; simp [lookupEntry] at h
  | cons kv tl ih =>
    intro name t h
    obtain ⟨n, node⟩ := kv
    by_cases hk : n = name
    · have hnode : node = .symlink t := by
        simp [lookupEntry, List.find?, beq_iff_eq.mpr hk] at h
        exact h
      subst hnode
      subst hk
      simp [symPosT]
    · have h' : lookupEntry tl name = some (.symlink t) := by
        simpa [lookupEntry, List.find?, beq_eq_false_iff_ne.mpr hk] using h
      rw [symPosT_cons]
      exact List.mem_append_right _ (ih name t h')

/-- Positions of a subdirectory lift to positions of the parent. -/
theorem mem_symPosT_prefix :
    ∀ (es : Entries) (c : String) (sub : Entries),
      lookupEntry es c = some (.dir sub) →
      ∀ q ∈ symPosT sub, ((c :: q.1.1, q.1.2), q.2) ∈ symPosT es := by
  intro es
  induction es with
  | nil => intro c sub h; simp [lookupEntry] at h
  | cons kv tl ih =>
    intro c sub h q hq
    obtain ⟨n, node⟩ := kv
    by_cases hk : n = c
    · have hnode : node = .dir sub := by
        simp [lookupEntry, List.find?, beq_iff_eq.mpr hk] at h
        exact h
      subst hnode
      subst hk
      simp only [symPosT]
      exact List.mem_append_left _
        (List.mem_map_of_mem (fun q => ((n :: q.1.1, q.1.2), q.2)) hq)
    · have h' : lookupEntry tl c = some (.dir sub) := by
        simpa [lookupEntry, List.find?, beq_eq_false_iff_ne.mpr hk] using h
      rw [symPosT_cons]
      exact List.mem_append_right _ (ih c sub h' q hq)

/-- A symlink entry at a valid path is among the tree's symlink positions. -/
theorem mem_symPosT_at_path :
    ∀ (dpath : List String) (root es : Entries) (name t : String),
      treeAt root dpath = some es →
      lookupEntry es name = some (.symlink t) →
      ((dpath, name), t) ∈ symPosT root := by
  intro dpath
  induction dpath with
  | nil =>
    intro root es name t ht hl
    have : root = es := by
      simpa [treeAt] using ht
    subst this
    exact mem_symPosT_of_lookup root name t hl
  | cons c rest ih =>
    intro root es name t ht hl
    rcases hnode : lookupEntry root c with _ | node
    · rw [show treeAt root (c :: rest)
          = (match lookupEntry root c with
             | some (.dir sub) => treeAt sub rest
             | _ => none) from rfl, hnode] at ht
      cases ht
    · cases node with
      | dir sub =>
        rw [show treeAt root (c :: rest)
            = (match lookupEntry root c with
               | some (.dir sub) => treeAt sub rest
               | _ => none) from rfl, hnode] at ht
        exact mem_symPosT_prefix root c sub hnode ((rest, name), t)
          (ih sub es name t ht hl)
      | file d x =>
        rw [show treeAt root (c :: rest)
            = (match lookupEntry root c with
               | some (.dir sub) => treeAt sub rest
               | _ => none) from rfl, hnode] at ht
        cases ht
      | symlink tt =>
        rw [show treeAt root (c :: rest)
            = (match lookupEntry root c with
               | some (.dir sub) => treeAt sub rest
               | _ => none) from rfl, hnode] at ht
        cases ht

/-- Fewer symlink positions keep the target bound. -/
theorem targetsOk_of_sublist {es₁ es₂ : Entries} {B : Nat}
    (h : List.Sublist (symPosT es₁) (symPosT es₂)) (ht : targetsOk es₂ B) :
    targetsOk es₁ B :=
  fun q hq => ht q (h.subset hq)

theorem sok_refl (st : RSt) : SOk st st :=
  ⟨List.Sublist.refl _, fun _ h => h⟩

theorem sok_trans {st₁ st₂ st₃ : RSt} (h₁ : SOk st₁ st₂) (h₂ : SOk st₂ st₃) :
    SOk st₁ st₃ :=
  ⟨h₂.1.trans h₁.1, fun q h => h₂.2 q (h₁.2 q h)⟩

theorem rok_trans {st st' : RSt}
    {r : Except RErr (RSt × Option FType × Option (List String))}
    (h : SOk st st') (hr : ROk st' r) : ROk st r := by
  cases r with
  | error e => trivial
  | ok res =>
    obtain ⟨st'', rt, rr⟩ := res
    exact sok_trans h hr

/-- The unseen-symlink count never grows along a resolver step. -/
theorem rUnseen_le_of_sok {st st' : RSt} (h : SOk st st') :
    rUnseen st' ≤ rUnseen st := by
  unfold rUnseen
  calc (symPosT st'.root).countP (fun q => !decide (q.1 ∈ st'.seen))
      ≤ (symPosT st.root).countP (fun q => !decide (q.1 ∈ st'.seen)) :=
        h.1.countP_le _
    _ ≤ (symPosT st.root).countP (fun q => !decide (q.1 ∈ st.seen)) := by
        refine List.countP_mono_left ?_
        intro q _ hq
        simp only [Bool.not_eq_true', decide_eq_false_iff_not] at hq ⊢
        exact fun hc => hq (h.2 q.1 hc)

/-- Following a fresh symlink strictly decreases the unseen count. -/
theorem rUnseen_lt_follow {st : RSt} {dpath : List String} {name t : String}
    (hmem : ((dpath, name), t) ∈ symPosT st.root)
    (hns : (dpath, name) ∉ st.seen) :
    rUnseen ⟨st.root, st.seen ++ [(dpath, name)]⟩ < rUnseen st := by
  unfold rUnseen
  refine countP_lt_of_witness (a := ((dpath, name), t)) ?_ hmem ?_ ?_
  · intro q hq
    simp only [Bool.not_eq_true', decide_eq_false_iff_not, List.mem_append,
      List.mem_singleton] at hq ⊢
    exact fun hc => hq (Or.inl hc)
  · simpa using hns
  · simp

/-- A list member is bounded by the folded maximum. -/
theorem le_foldr_max {α : Type} (f : α → Nat) :
    ∀ (l : List α) (a : α), a ∈ l →
      f a ≤ l.foldr (fun x acc => max (f x) acc) 0 := by
  intro l
  induction l with
  | nil => intro a ha; cases ha
  | cons x xs ih =>
    intro a ha
    rcases List.mem_cons.mp ha with rfl | ha
    · simp only [List.foldr]
      exact le_max_left _ _
    · simp only [List.foldr]
      exact le_trans (ih a ha) (le_max_right _ _)

/-- Fuel sufficiency for the resolver: with `B` bounding the per-target work
(`targetsOk`), any fuel beyond `rUnseen st * B` completes each call shape —
no symlink graph can make the resolver loop forever — and every completed call
satisfies the state invariant `ROk`. -/
theorem resolveGo_total_aux (ar fc : Bool) (B : Nat) :
    ∀ fuel : Nat,
      (∀ (st : RSt) (name : String) (dpath : List String),
        targetsOk st.root B → rUnseen st * B + 1 ≤ fuel →
        ∃ r, resolveGo ar fc fuel (.resolve name dpath) st = some r ∧
          ROk st r) ∧
      (∀ (st : RSt) (comps dpath : List String),
        targetsOk st.root B → rUnseen st * B + 4 * comps.length + 4 ≤ fuel →
        ∃ r, resolveGo ar fc fuel (.loop comps dpath) st = some r ∧
          ROk st r) ∧
      (∀ (st : RSt) (c : String) (dpath rest : List String),
        targetsOk st.root B → rUnseen st * B + 3 ≤ fuel →
        ∃ r, resolveGo ar fc fuel (.component c dpath rest) st = some r ∧
          ROk st r) ∧
      (∀ (st : RSt) (c : String) (dpath rest : List String),
        targetsOk st.root B → rUnseen st * B + 2 ≤ fuel →
        ∃ r, resolveGo ar fc fuel (.throughFiles c dpath rest) st = some r ∧
          ROk st r) := by
  intro fuel
  induction fuel with
  | zero =>
    refine ⟨?_, ?_, ?_, ?_⟩
    · intro st name dpath ht hf
      omega
    · intro st comps dpath ht hf
      omega
    · intro st c dpath rest ht hf
      omega
    · intro st c dpath rest ht hf
      omega
  | succ f ih =>
    obtain ⟨ihR, ihL, ihC, ihT⟩ := ih
    refine ⟨?_, ?_, ?_, ?_⟩
    · -- resolve
      intro st name dpath ht hf
      rcases hlk : lookupEntry ((treeAt st.root dpath).getD []) name with _ | node
      · exact ⟨.ok (st, none, none), by simp [resolveGo, hlk], sok_refl st⟩
      · cases node with
        | dir sub =>
          exact ⟨.ok (st, some .directory, some (dpath ++ [name])),
            by simp [resolveGo, hlk], sok_refl st⟩
        | file d x =>
          exact ⟨.ok (st, some .regularFile, none),
            by simp [resolveGo, hlk], sok_refl st⟩
        | symlink target =>
          by_cases hseen : (dpath, name) ∈ st.seen
          · exact ⟨.error .infiniteSymlink,
              by simp [resolveGo, hlk, hseen], trivial⟩
          · have hts : ∃ es, treeAt st.root dpath = some es ∧
                lookupEntry es name = some (.symlink target) := by
              rcases h : treeAt st.root dpath with _ | es
              · rw [h] at hlk
                simp [lookupEntry] at hlk
              · rw [h] at hlk
                exact ⟨es, rfl, hlk⟩
            obtain ⟨es, hts1, hts2⟩ := hts
            have hmem : ((dpath, name), target) ∈ symPosT st.root :=
              mem_symPosT_at_path dpath st.root es name target hts1 hts2
            have hsok : SOk st ⟨st.root, st.seen ++ [(dpath, name)]⟩ :=
              ⟨List.Sublist.refl _, fun q h => List.mem_append_left _ h⟩
            have hU1 : rUnseen ⟨st.root, st.seen ++ [(dpath, name)]⟩
                < rUnseen st := rUnseen_lt_follow hmem hseen
            have hmul : rUnseen ⟨st.root, st.seen ++ [(dpath, name)]⟩ * B + B
                ≤ rUnseen st * B := by
              have h2 := Nat.mul_le_mul_right (k := B) hU1
              rw [Nat.succ_mul] at h2
              exact h2
            have hcomp : 4 * (splitSlash target).length + 4 ≤ B := ht _ hmem
            cases habs : startsWithSlash target with
            | false =>
              obtain ⟨r, hr, hrok⟩ := ihL ⟨st.root, st.seen ++ [(dpath, name)]⟩
                (splitSlash target) dpath ht (by omega)
              exact ⟨r, by simp [resolveGo, hlk, hseen, habs, hr],
                rok_trans hsok hrok⟩
            | true =>
              cases ar with
              | false =>
                exact ⟨.error .absoluteSymlink,
                  by simp [resolveGo, hlk, hseen, habs], trivial⟩
              | true =>
                have htail : 4 * (splitSlash target).tail.length
                    ≤ 4 * (splitSlash target).length := by
                  have := List.length_tail (splitSlash target)
                  omega
                obtain ⟨r, hr, hrok⟩ :=
                  ihL ⟨st.root, st.seen ++ [(dpath, name)]⟩
                    (splitSlash target).tail [] ht (by omega)
                exact ⟨r, by simp [resolveGo, hlk, hseen, habs, hr],
                  rok_trans hsok hrok⟩
    · -- the component while-loop
      intro st comps dpath ht hf
      cases comps with
      | nil =>
        exact ⟨.ok (st, some .directory, some dpath),
          by simp [resolveGo], sok_refl st⟩
      | cons c rest =>
        simp only [List.length_cons] at hf
        obtain ⟨r₁, hr₁, hrok₁⟩ := ihC st c dpath rest ht (by omega)
        cases r₁ with
        | error e => exact ⟨.error e, by simp [resolveGo, hr₁], trivial⟩
        | ok res =>
          obtain ⟨st', rtype, rres⟩ := res
          have hsok₁ : SOk st st' := hrok₁
          have ht' : targetsOk st'.root B := targetsOk_of_sublist hsok₁.1 ht
          have hmul : rUnseen st' * B ≤ rUnseen st * B :=
            Nat.mul_le_mul_right (k := B) (rUnseen_le_of_sok hsok₁)
          rcases rtype with _ | ft
          · exact ⟨.ok (st', none, rres), by simp [resolveGo, hr₁], hrok₁⟩
          · cases ft with
            | directory =>
              obtain ⟨r₂, hr₂, hrok₂⟩ :=
                ihL st' rest (rres.getD []) ht' (by omega)
              exact ⟨r₂, by simp [resolveGo, hr₁, hr₂],
                rok_trans hsok₁ hrok₂⟩
            | regularFile =>
              exact ⟨.ok (st', some .regularFile, rres),
                by simp [resolveGo, hr₁], hrok₁⟩
            | symlink =>
              exact ⟨.ok (st', some .symlink, rres),
                by simp [resolveGo, hr₁], hrok₁⟩
    · -- _resolve_path_component
      intro st c dpath rest ht hf
      by_cases hdot : c = "."
      · exact ⟨.ok (st, some .directory, some dpath),
          by simp [resolveGo, hdot], sok_refl st⟩
      · by_cases hdd : c = ".."
        · exact ⟨.ok (st, some .directory, some dpath.dropLast),
            by simp [resolveGo, hdot, hdd], sok_refl st⟩
        · rcases hlk : lookupEntry ((treeAt st.root dpath).getD []) c
            with _ | node
          · cases fc with
            | false =>
              exact ⟨.ok (st, none, none),
                by simp [resolveGo, hdot, hdd, hlk], sok_refl st⟩
            | true =>
              by_cases hempty : c = ""
              · exact ⟨.ok (st, some .directory, some dpath),
                  by subst hempty; simp [resolveGo, hdot, hdd, hlk],
                  sok_refl st⟩
              · refine ⟨.ok
                  (⟨updateAt st.root dpath (fun es => es ++ [(c, .dir [])]),
                    st.seen⟩, some .directory, some (dpath ++ [c])),
                  by simp [resolveGo, hdot, hdd, hlk, hempty], ?_⟩
                refine ⟨?_, fun q h => h⟩
                refine symPosT_updateAt ?_ dpath st.root
                intro es
                rw [symPosT_append_dir es c]
          · obtain ⟨r, hr, hrok⟩ := ihT st c dpath rest ht (by omega)
            exact ⟨r, by simp [resolveGo, hdot, hdd, hlk, hr], hrok⟩
    · -- _resolve_through_files
      intro st c dpath rest ht hf
      obtain ⟨r₁, hr₁, hrok₁⟩ := ihR st c dpath ht (by omega)
      cases r₁ with
      | error e => exact ⟨.error e, by simp [resolveGo, hr₁], trivial⟩
      | ok res =>
        obtain ⟨st', rtype, rres⟩ := res
        have hsok₁ : SOk st st' := hrok₁
        by_cases hft : rtype = some FType.regularFile
        · cases rest with
          | nil =>
            exact ⟨.ok (st', rtype, rres),
              by simp [resolveGo, hr₁, hft], hrok₁⟩
          | cons r0 rs =>
            cases fc with
            | false =>
              exact ⟨.error .unexpectedFile,
                by simp [resolveGo, hr₁, hft], trivial⟩
            | true =>
              refine ⟨.ok
                (⟨updateAt
                    (updateAt st'.root dpath (fun es => delete_entry es c))
                    dpath (fun es => es ++ [(c, .dir [])]), st'.seen⟩,
                  some .directory, some (dpath ++ [c])),
                by simp [resolveGo, hr₁, hft], ?_⟩
              refine rok_trans hsok₁ ⟨?_, fun q h => h⟩
              have h2 : List.Sublist
                  (symPosT (updateAt st'.root dpath
                    (fun es => delete_entry es c)))
                  (symPosT st'.root) :=
                symPosT_updateAt (fun es => symPosT_delete_sublist es c)
                  dpath st'.root
              refine List.Sublist.trans ?_ h2
              refine symPosT_updateAt ?_ dpath _
              intro es
              rw [symPosT_append_dir es c]
        · exact ⟨.ok (st', rtype, rres),
            by simp [resolveGo, hr₁, hft], hrok₁⟩

/-- C4: symlink resolution is safe.  For every directory tree and every
configuration of the flags, `_Resolver.resolve` terminates: a fuel budget
determined by the tree alone (each symlink entry is followed at most once —
`seen_objects` — and each contributes boundedly many component steps)
suffices, so the resolver can never loop forever.  And resolution never
ascends above the virtual root: `..` resolved in the root directory (no
parent) returns the root itself, POSIX-style. -/
theorem resolver_terminates_and_root_parent :
    (∀ (ar fc : Bool) (root : Entries) (name : String)
        (dpath : List String) (fuel : Nat),
      (symPosT root).length * (4 * maxTargetComps root + 4) + 1 ≤ fuel →
      (resolver_resolve ar fc fuel root name dpath).isSome) ∧
    (∀ (ar fc : Bool) (fuel : Nat) (st : RSt) (rest : List String),
      resolveGo ar fc (fuel + 1) (.component ".." [] rest) st
        = some (.ok (st, some FType.directory, some []))) := by
  constructor
  · intro ar fc root name dpath fuel hfuel
    have htargets : targetsOk root (4 * maxTargetComps root + 4) := by
      intro q hq
      have h1 : (splitSlash q.2).length ≤ maxTargetComps root :=
        le_foldr_max (fun p => (splitSlash p.2).length) (symPosT root) q hq
      omega
    have hU0 : rUnseen ⟨root, []⟩ = (symPosT root).length := by
      unfold rUnseen
      simp
    obtain ⟨r, hr, -⟩ :=
      (resolveGo_total_aux ar fc (4 * maxTargetComps root + 4) fuel).1
        ⟨root, []⟩ name dpath htargets (by rw [hU0]; exact hfuel)
    unfold resolver_resolve
    rw [hr]
    rfl
  · intro ar fc fuel st rest
    rfl

theorem resolver_terminates_witness :
    (resolver_resolve true false 9
        [("a", CNode.symlink "b"), ("b", CNode.dir [])] "a" []).isSome :=
  resolver_terminates_and_root_parent.1 true false
    [("a", CNode.symlink "b"), ("b", CNode.dir [])] "a" [] 9
    (by simp [symPosT, maxTargetComps, splitSlash, splitChars])
